import Mathlib

/-!
Verification of the `lowres` image converter (Rust; two near-duplicate
modules, `src/app/lowres.rs` and `src/src-tauri/src/lowres.rs`) against its
natural-language specification.

Shallow embedding conventions: Rust `u32` arithmetic is `Nat` with an
explicit `% 2 ^ 32` wherever the source computes in `u32` (release-mode
overflow wraps); the `as u8` cast is `% 256`; `usize` arithmetic (64-bit,
never close to overflow here) is plain `Nat`; code that can panic or fail
returns `Option`.  The two `f64` spots (`pick_target_size`, `dpi_to_ppm`)
are modelled as documented at their definitions.
-/

/-- Modulus of Rust `u32` arithmetic (overflow wraps in release builds). -/
def U32 : Nat := 4294967296

/-- Largest `u32` value; Rust float-to-int casts saturate here. -/
def u32Max : Nat := 4294967295

/-- One RGBA pixel: four 8-bit channels stored as `Nat`. -/
structure Rgba where
  r : Nat
  g : Nat
  b : Nat
  a : Nat
deriving DecidableEq

/-- Channel projection in the byte order R, G, B, A used by `RgbaImage`. -/
def Rgba.channel (p : Rgba) (c : Nat) : Nat :=
  match c with
  | 0 => p.r
  | 1 => p.g
  | 2 => p.b
  | _ => p.a

/-- An RGBA image: dimensions plus a pixel lookup (`image::RgbaImage`).
Only coordinates with `x < width` and `y < height` are meaningful. -/
structure Image where
  width : Nat
  height : Nat
  pix : Nat → Nat → Rgba

/-- A well-formed image has 8-bit channels, as `Rgba<u8>` guarantees in Rust. -/
def Image.Valid (img : Image) : Prop :=
  ∀ x < img.width, ∀ y < img.height,
    (img.pix x y).r < 256 ∧ (img.pix x y).g < 256 ∧
    (img.pix x y).b < 256 ∧ (img.pix x y).a < 256

/-- Row-major, channel-interleaved byte layout of an image, as stored by
`image::RgbaImage` (its raw container). -/
def Image.rawBytes (img : Image) : List Nat :=
  (List.range img.height).flatMap fun y =>
    (List.range img.width).flatMap fun x =>
      [(img.pix x y).r, (img.pix x y).g, (img.pix x y).b, (img.pix x y).a]

/-- The five resampling kernels of the `Resample` enum
(`image::imageops::FilterType`). -/
inductive FilterType
  | nearest
  | triangle
  | catmullRom
  | gaussian
  | lanczos3
deriving DecidableEq

/-- The four `u32` channel accumulators and the `u32` pixel counter of the
block-averaging loop. -/
structure AvgAcc where
  rSum : Nat
  gSum : Nat
  bSum : Nat
  aSum : Nat
  count : Nat
deriving DecidableEq

/-- Initial accumulator state (`0u32` everywhere). -/
def acc0 : AvgAcc := ⟨0, 0, 0, 0, 0⟩

/-- One iteration of the averaging loop body:
`r_sum += pixel[0] as u32; ...; count += 1;` in wrapping `u32` arithmetic. -/
def accPixel (acc : AvgAcc) (p : Rgba) : AvgAcc :=
  ⟨(acc.rSum + p.r) % U32, (acc.gSum + p.g) % U32, (acc.bSum + p.b) % U32,
   (acc.aSum + p.a) % U32, (acc.count + 1) % U32⟩

/-- Inner loop `for x in x_start..x_end` of the block-averaging closure. -/
def accRow (img : Image) (xs xe y : Nat) (acc : AvgAcc) : AvgAcc :=
  (List.range (xe - xs)).foldl (fun a dx => accPixel a (img.pix (xs + dx) y)) acc

/-- Outer loop `for y in y_start..y_end` of the block-averaging closure,
started from zeroed accumulators. -/
def accBlock (img : Image) (xs xe ys ye : Nat) : AvgAcc :=
  (List.range (ye - ys)).foldl (fun a dy => accRow img xs xe (ys + dy) a) acc0

/-- Mathematical per-row channel sum over `x ∈ [xs, xe)` at row `y`. -/
def rowSum (img : Image) (xs xe y : Nat) (f : Rgba → Nat) : Nat :=
  ((List.range (xe - xs)).map (fun dx => f (img.pix (xs + dx) y))).sum

/-- Mathematical channel sum over the rectangle `[xs, xe) × [ys, ye)`. -/
def rectSum (img : Image) (xs xe ys ye : Nat) (f : Rgba → Nat) : Nat :=
  ((List.range (ye - ys)).map (fun dy => rowSum img xs xe (ys + dy) f)).sum

/-- Number of pixels of the rectangle `[xs, xe) × [ys, ye)`. -/
def rectCount (xs xe ys ye : Nat) : Nat := (ye - ys) * (xe - xs)

/-- `blocks_x = (w as usize + b - 1) / b` from both `pixelate` versions
(`usize` arithmetic; exact as `Nat`). -/
def blocksX (w b : Nat) : Nat := (w + b - 1) / b

/-- `blocks_y = (h as usize + b - 1) / b` from both `pixelate` versions. -/
def blocksY (h b : Nat) : Nat := (h + b - 1) / b

/-- Average color of block `idx`, translated from the closure inside
`pixelate` (identical in `src/app/lowres.rs` lines 205-244 and
`src/src-tauri/src/lowres.rs` lines 182-221): wrapping `u32` accumulators,
truncating `u32` division, `as u8` cast (`% 256`), and `(0, 0, 0, 255)` when
the (wrapped) pixel counter is zero. -/
def blockColor (img : Image) (b bx : Nat) (idx : Nat) : Rgba :=
  let blockY := idx / bx
  let blockX := idx % bx
  let xs := blockX * b
  let ys := blockY * b
  let xe := min (xs + b) img.width
  let ye := min (ys + b) img.height
  let acc := accBlock img xs xe ys ye
  if 0 < acc.count then
    ⟨acc.rSum / acc.count % 256, acc.gSum / acc.count % 256,
     acc.bSum / acc.count % 256, acc.aSum / acc.count % 256⟩
  else ⟨0, 0, 0, 255⟩

/-- `block_colors`: the row-major table of averaged block colors, one entry
per index in `0..blocks_y * blocks_x` (both `pixelate` versions). -/
def blockColors (img : Image) (b : Nat) : List Rgba :=
  (List.range (blocksY img.height b * blocksX img.width b)).map
    (blockColor img b (blocksX img.width b))

/-- Left edge `block_x * b` of block `idx` (specification-side helper). -/
def xStartOf (bx b idx : Nat) : Nat := idx % bx * b

/-- Top edge `block_y * b` of block `idx` (specification-side helper). -/
def yStartOf (bx b idx : Nat) : Nat := idx / bx * b

/-- Right edge of block `idx`, clamped to the image width. -/
def xEndOf (w bx b idx : Nat) : Nat := min (xStartOf bx b idx + b) w

/-- Bottom edge of block `idx`, clamped to the image height. -/
def yEndOf (h bx b idx : Nat) : Nat := min (yStartOf bx b idx + b) h

/-- Exact pixel count of block `idx` (extent clamped to the image). -/
def blockCount (img : Image) (bx b idx : Nat) : Nat :=
  rectCount (xStartOf bx b idx) (xEndOf img.width bx b idx)
    (yStartOf bx b idx) (yEndOf img.height bx b idx)

/-- Exact channel sum of block `idx` (extent clamped to the image). -/
def blockSum (img : Image) (bx b idx : Nat) (f : Rgba → Nat) : Nat :=
  rectSum img (xStartOf bx b idx) (xEndOf img.width bx b idx)
    (yStartOf bx b idx) (yEndOf img.height bx b idx) f

namespace App

/-- `pixelate` from `src/app/lowres.rs` lines 193-261.  The output keeps the
original dimensions and every pixel `(x, y)` is overwritten with
`block_colors[(y / b) * blocks_x + x / b]`.  The `getD` default models the
zero initialisation of `ImageBuffer::new`, never read in bounds because the
index is always in range.  `_down_filter` is unused, as in the source. -/
def pixelate (img : Image) (block : Nat) (_down_filter : FilterType) : Image :=
  let b := max block 1
  let bx := blocksX img.width b
  { width := img.width, height := img.height,
    pix := fun x y => (blockColors img b).getD (y / b * bx + x / b) ⟨0, 0, 0, 0⟩ }

end App

namespace Tauri

/-- One row chunk of the reconstruction loop in `src/src-tauri/src/lowres.rs`
lines 228-245: bytes `x*4 .. x*4+3` hold the channels of
`block_colors[(y / b) * blocks_x + x / b]`.  The `getD` default is never read
for the rows this is applied to. -/
def rowBytes (colors : List Rgba) (b bx w y : Nat) : List Nat :=
  (List.range w).flatMap fun x =>
    let c := colors.getD (y / b * bx + x / b) ⟨0, 0, 0, 0⟩
    [c.r, c.g, c.b, c.a]

/-- `pixelate` from `src/src-tauri/src/lowres.rs` lines 170-251.  The buffer
length `w * h * 4` and the row chunk size `w * 4` are computed in `u32` and
wrap modulo `2 ^ 32`.  `none` models the panic of `par_chunks_exact_mut`
when the chunk size is `0`, the out-of-bounds row write (and block-table
read) when the chunk size wrapped but rows still run, and the `from_raw`
failure when the buffer is shorter than the `w * h * 4` bytes it must hold;
bytes left unwritten by `chunks_exact_mut` keep their zero initialisation. -/
def pixelate (img : Image) (block : Nat) (_down_filter : FilterType) :
    Option (List Nat) :=
  let b := max block 1
  let w := img.width
  let h := img.height
  let bx := blocksX w b
  let colors := blockColors img b
  let len := w * h * 4 % U32
  let chunkSize := w * 4 % U32
  if chunkSize = 0 then none
  else
    let rows := len / chunkSize
    if rows ≠ 0 ∧ chunkSize ≠ w * 4 then none
    else
      let buffer := (List.range rows).flatMap (rowBytes colors b bx w) ++
        List.replicate (len - rows * chunkSize) 0
      if len < w * h * 4 then none else some buffer

end Tauri

/-- `ResizeMode` from both modules. -/
inductive ResizeMode
  | auto
  | exact
deriving DecidableEq

/-- Models the `f64` expression
`((a as f64) * (b as f64) / (den as f64)).round().max(1.0) as u32` of the
one-sided `pick_target_size` branches.  The IEEE special values are exact:
with `den = 0` the quotient is `NaN` when `a * b = 0` (and
`f64::max(NaN, 1.0) = 1.0`, cast to `1`) and `+inf` otherwise (saturated by
the `as u32` cast to `u32::MAX`).  The finite case is idealised as exact
rational arithmetic with round-half-away-from-zero and a saturating cast;
`f64` rounding of products up to `2^64` can deviate from this ideal, which
is why no claim about the exact rounded value of this branch is settled
(see the status of C3). -/
def scaleDim (a b den : Nat) : Nat :=
  if den = 0 then
    if a * b = 0 then 1 else u32Max
  else min (max ((2 * (a * b) + den) / (2 * den)) 1) u32Max

/-- `pick_target_size`, identical in `src/app/lowres.rs` lines 155-177 and
`src/src-tauri/src/lowres.rs` lines 132-154; the image argument is replaced
by its dimensions, and the `Result` wrapper is dropped because every match
arm returns `Ok`. -/
def pick_target_size (w0 h0 : Nat) (width height : Option Nat)
    (mode : ResizeMode) : Nat × Nat :=
  match width, height, mode with
  | some w, some h, ResizeMode.exact => (w, h)
  | some w, some h, ResizeMode.auto => (w, h)
  | some w, none, _ => (w, scaleDim h0 w w0)
  | none, some h, _ => (scaleDim w0 h h0, h)
  | none, none, _ => (64, 64)

/-- `dpi_to_ppm`: `((dpi as f64) / 0.0254).round() as u32`, identical in both
modules.  Modelled as exact rational round-half-away-from-zero,
`(10000 * dpi + 127) / 254`, with the saturating cast.  The ideal agrees
with the `f64` computation for every `u32` input: the exact quotient
`5000 * dpi / 127` is at least `1/254` away from every half-integer, while
the `f64` evaluation error stays below `2^-13`. -/
def dpi_to_ppm (dpi : Nat) : Nat := min ((10000 * dpi + 127) / 254) u32Max

/-- Physical-unit tag of the PNG `pHYs` chunk; the writer always passes
`png::Unit::Meter`. -/
inductive PngUnit
  | meter
deriving DecidableEq

/-- Observable encoder configuration produced by `write_png_with_dpi`
(file I/O and PNG serialisation elided). -/
structure PngInfo where
  width : Nat
  height : Nat
  xppu : Nat
  yppu : Nat
  unit : PngUnit
  data : List Nat
deriving DecidableEq

/-- `write_png_with_dpi` from `src/app/lowres.rs` lines 268-296 (the
`src-tauri` copy differs only in a compression option): it computes
`ppm = dpi_to_ppm(dpi)` and stores it as both `xppu` and `yppu` with
`Unit::Meter`, then writes the raw RGBA bytes. -/
def write_png_with_dpi (img : Image) (dpi : Nat) : PngInfo :=
  { width := img.width, height := img.height,
    xppu := dpi_to_ppm dpi, yppu := dpi_to_ppm dpi,
    unit := PngUnit.meter, data := img.rawBytes }

/-- A small 5×3 test image with distinct pixel values. -/
def img5x3 : Image := ⟨5, 3, fun x y => ⟨x, y, (x + y) % 256, 255⟩⟩

/-- A 5×3 image of uniform color `(10, 20, 30, 40)`. -/
def imgU : Image := ⟨5, 3, fun _ _ => ⟨10, 20, 30, 40⟩⟩

/-- A degenerate zero-width image of height 1. -/
def img0x1 : Image := ⟨0, 1, fun _ _ => ⟨0, 0, 0, 0⟩⟩

/-- A degenerate zero-width image of height 2. -/
def img0x2 : Image := ⟨0, 2, fun _ _ => ⟨1, 2, 3, 4⟩⟩

/-- 4105×4105 uniform white: a single fully-populated block of side 4105 has
`255 * 4105 ^ 2 ≥ 2 ^ 32`, overflowing the `u32` channel accumulators. -/
def img4105C : Image := ⟨4105, 4105, fun _ _ => ⟨255, 255, 255, 255⟩⟩

/-- 4105×4105 uniform transparent black (all channels zero). -/
def img4105Z : Image := ⟨4105, 4105, fun _ _ => ⟨0, 0, 0, 0⟩⟩

/-- The resolver test vectors of the specification hold in the rational
model of `pick_target_size` (general development; the universally
quantified `f64` rounding claim itself is outside the embedding). -/
theorem pick_target_size_vectors :
    pick_target_size 100 50 none none ResizeMode.auto = (64, 64) ∧
    pick_target_size 100 50 (some 50) none ResizeMode.auto = (50, 25) ∧
    pick_target_size 100 50 none (some 25) ResizeMode.exact = (50, 25) ∧
    pick_target_size 100 50 (some 30) (some 30) ResizeMode.exact = (30, 30) ∧
    pick_target_size 100 50 (some 30) (some 30) ResizeMode.auto = (30, 30) := by
  decide

/-- The computed (non-hint) dimension of the resolver is always at least 1. -/
theorem one_le_scaleDim (a b den : Nat) : 1 ≤ scaleDim a b den := by
  unfold scaleDim u32Max
  split
  · split
    · exact le_refl 1
    · omega
  · exact le_min (le_max_right _ 1) (by omega)

/-- C5: the resolver has no zero-dimension guard.  With `orig_w = 0` and only
a width hint, `pick_target_size` still returns `Ok`: the `f64` quotient
`50 * 50 / 0.0` is `+inf`, which the `as u32` cast saturates to `u32::MAX`,
so the code answers `Ok((50, 4294967295))` where the specification demands a
fatal configuration error. -/
theorem c5_no_zero_guard :
    pick_target_size 0 50 (some 50) none ResizeMode.auto = (50, 4294967295) := by
  decide

/-- C6 counterexample: with hints `width = Some 0, height = Some 0` the
resolver returns `(0, 0)` verbatim, so the claimed positivity of both
components fails. -/
theorem c6_counterexample :
    pick_target_size 100 50 (some 0) (some 0) ResizeMode.auto = (0, 0) ∧
    ¬ 1 ≤ (pick_target_size 100 50 (some 0) (some 0) ResizeMode.auto).1 := by
  decide

/-- C6 (amended): the resolver is total and never fails; hint components are
returned verbatim (hence a zero hint yields a zero component), while every
component the resolver computes itself is at least 1. -/
theorem c6_resolver_total (w0 h0 : Nat) (width height : Option Nat)
    (mode : ResizeMode) :
    (∀ w, width = some w → (pick_target_size w0 h0 width height mode).1 = w) ∧
    (width = none → 1 ≤ (pick_target_size w0 h0 width height mode).1) ∧
    (∀ h, height = some h → (pick_target_size w0 h0 width height mode).2 = h) ∧
    (height = none → 1 ≤ (pick_target_size w0 h0 width height mode).2) := by
  rcases width with _ | w <;> rcases height with _ | h <;> cases mode <;>
    simp [pick_target_size, one_le_scaleDim]

/-- C6 witness: the amended resolver contract at a concrete input. -/
theorem c6_resolver_total_witness :
    (pick_target_size 100 50 (some 50) none ResizeMode.auto).1 = 50 ∧
    1 ≤ (pick_target_size 100 50 (some 50) none ResizeMode.auto).2 := by
  have h := c6_resolver_total 100 50 (some 50) none ResizeMode.auto
  exact ⟨h.1 50 rfl, h.2.2.2 rfl⟩

/-- C8: the downscale-filter argument is dead configuration: both `pixelate`
implementations ignore it, so any two filter values give identical outputs
for every image and block size. -/
theorem c8_filter_no_effect (img : Image) (block : Nat) (f1 f2 : FilterType) :
    App.pixelate img block f1 = App.pixelate img block f2 ∧
    Tauri.pixelate img block f1 = Tauri.pixelate img block f2 :=
  ⟨rfl, rfl⟩

/-- Round-half-away-from-zero of a nonnegative rational, as Nat division. -/
theorem round_nat_div (n d : Nat) (hd : 0 < d) :
    round ((n : ℚ) / (d : ℚ)) = ((2 * n + d) / (2 * d) : ℕ) := by
  rw [round_eq]
  have hd' : ((d : ℚ)) ≠ 0 := by exact_mod_cast hd.ne'
  have key : (n : ℚ) / (d : ℚ) + 1 / 2 =
      ((2 * n + d : ℕ) : ℚ) / ((2 * d : ℕ) : ℚ) := by
    push_cast
    field_simp
    ring
  rw [key, Rat.floor_natCast_div_natCast]
  exact_mod_cast rfl

/-- C9 counterexample: for `dpi = u32::MAX` the `as u32` cast saturates, so
the computed pixels-per-meter value is `u32::MAX`, not the mathematical
`round(dpi / 0.0254)`. -/
theorem c9_counterexample :
    (dpi_to_ppm 4294967295 : ℤ) ≠
      round ((4294967295 : ℚ) / (0.0254 : ℚ)) := by
  have h1 : ((4294967295 : ℚ) / (0.0254 : ℚ)) =
      ((10000 * 4294967295 : ℕ) : ℚ) / ((254 : ℕ) : ℚ) := by
    norm_num
  rw [h1, round_nat_div _ _ (by norm_num)]
  norm_num [dpi_to_ppm, u32Max]

/-- C9 (amended): the DPI conversion computes
`min(round(dpi / 0.0254), u32::MAX)` (the cast saturates for huge DPI), with
`dpi_to_ppm 300 = 11811` and `dpi_to_ppm 72 = 2835`, and the PNG writer sets
both the horizontal and the vertical density to this same value with unit
meters. -/
theorem c9_dpi_metadata (dpi : Nat) (img : Image) :
    (dpi_to_ppm dpi : ℤ) =
      min (round ((dpi : ℚ) / (0.0254 : ℚ))) (u32Max : ℤ) ∧
    dpi_to_ppm 300 = 11811 ∧ dpi_to_ppm 72 = 2835 ∧
    (write_png_with_dpi img dpi).xppu = dpi_to_ppm dpi ∧
    (write_png_with_dpi img dpi).yppu = dpi_to_ppm dpi ∧
    (write_png_with_dpi img dpi).unit = PngUnit.meter := by
  refine ⟨?_, by decide, by decide, rfl, rfl, rfl⟩
  have h1 : ((dpi : ℚ) / (0.0254 : ℚ)) =
      ((10000 * dpi : ℕ) : ℚ) / ((254 : ℕ) : ℚ) := by
    push_cast
    norm_num
    ring
  rw [h1, round_nat_div _ _ (by norm_num)]
  have h2 : (2 * (10000 * dpi) + 254) / (2 * 254) = (10000 * dpi + 127) / 254 := by
    have := Nat.mul_div_mul_left (10000 * dpi + 127) 254 (show 0 < 2 by norm_num)
    calc (2 * (10000 * dpi) + 254) / (2 * 254)
        = 2 * (10000 * dpi + 127) / (2 * 254) := by ring_nf
      _ = (10000 * dpi + 127) / 254 := by
          rw [Nat.mul_div_mul_left _ _ (show 0 < 2 by norm_num)]
  rw [h2]
  unfold dpi_to_ppm
  push_cast [Nat.cast_min]
  rfl

theorem U32_pos : 0 < U32 := by norm_num [U32]

/-- Closed form of the inner averaging loop: each accumulator receives the
channel sum of the row modulo `2 ^ 32`, provided the incoming state is
already reduced modulo `2 ^ 32`. -/
theorem accRow_eq (img : Image) (xs xe y : Nat) (acc : AvgAcc)
    (h1 : acc.rSum < U32) (h2 : acc.gSum < U32) (h3 : acc.bSum < U32)
    (h4 : acc.aSum < U32) (h5 : acc.count < U32) :
    accRow img xs xe y acc =
      ⟨(acc.rSum + rowSum img xs xe y (fun p => p.r)) % U32,
       (acc.gSum + rowSum img xs xe y (fun p => p.g)) % U32,
       (acc.bSum + rowSum img xs xe y (fun p => p.b)) % U32,
       (acc.aSum + rowSum img xs xe y (fun p => p.a)) % U32,
       (acc.count + (xe - xs)) % U32⟩ := by
  unfold accRow rowSum
  generalize xe - xs = n
  induction n with
  | zero =>
    simp [Nat.mod_eq_of_lt h1, Nat.mod_eq_of_lt h2, Nat.mod_eq_of_lt h3,
      Nat.mod_eq_of_lt h4, Nat.mod_eq_of_lt h5]
  | succ m ih =>
    simp only [List.range_succ, List.foldl_append, List.map_append,
      List.sum_append, List.foldl_cons, List.foldl_nil, List.map_cons,
      List.map_nil, List.sum_cons, List.sum_nil, Nat.add_zero]
    rw [ih]
    simp only [accPixel]
    congr 1 <;> rw [Nat.mod_add_mod, Nat.add_assoc]

/-- Closed form of the whole block-averaging loop nest: the accumulators end
up holding the exact rectangle sums and pixel count modulo `2 ^ 32`. -/
theorem accBlock_eq (img : Image) (xs xe ys ye : Nat) :
    accBlock img xs xe ys ye =
      ⟨rectSum img xs xe ys ye (fun p => p.r) % U32,
       rectSum img xs xe ys ye (fun p => p.g) % U32,
       rectSum img xs xe ys ye (fun p => p.b) % U32,
       rectSum img xs xe ys ye (fun p => p.a) % U32,
       rectCount xs xe ys ye % U32⟩ := by
  unfold accBlock rectSum rectCount
  generalize ye - ys = m
  induction m with
  | zero => simp [acc0]
  | succ k ih =>
    simp only [List.range_succ, List.foldl_append, List.map_append,
      List.sum_append, List.foldl_cons, List.foldl_nil, List.map_cons,
      List.map_nil, List.sum_cons, List.sum_nil, Nat.add_zero]
    rw [ih]
    rw [accRow_eq img xs xe (ys + k) _
      (Nat.mod_lt _ U32_pos) (Nat.mod_lt _ U32_pos) (Nat.mod_lt _ U32_pos)
      (Nat.mod_lt _ U32_pos) (Nat.mod_lt _ U32_pos)]
    congr 1 <;> rw [Nat.mod_add_mod]
    rw [Nat.succ_mul]

/-- `blockColor` characterised by the exact block sums and pixel count: the
branch on the wrapped `u32` counter, then wrapped sums divided by the wrapped
counter, truncated to `u8`. -/
theorem blockColor_eq (img : Image) (b bx idx : Nat) :
    blockColor img b bx idx =
      if blockCount img bx b idx % U32 = 0 then ⟨0, 0, 0, 255⟩
      else
        ⟨blockSum img bx b idx (fun p => p.r) % U32 /
            (blockCount img bx b idx % U32) % 256,
         blockSum img bx b idx (fun p => p.g) % U32 /
            (blockCount img bx b idx % U32) % 256,
         blockSum img bx b idx (fun p => p.b) % U32 /
            (blockCount img bx b idx % U32) % 256,
         blockSum img bx b idx (fun p => p.a) % U32 /
            (blockCount img bx b idx % U32) % 256⟩ := by
  simp only [blockColor, blockSum, blockCount, xStartOf, yStartOf, xEndOf,
    yEndOf]
  rw [accBlock_eq]
  rcases Nat.eq_zero_or_pos (rectCount (idx % bx * b)
      (min (idx % bx * b + b) img.width) (idx / bx * b)
      (min (idx / bx * b + b) img.height) % U32) with h | h
  · simp [h]
  · simp [h, Nat.pos_iff_ne_zero.mp h]

/-- `blocks_x` is an upper grid bound: `blocks_x * b` covers the width. -/
theorem le_blocksX_mul (w b : Nat) (hb : 0 < b) : w ≤ blocksX w b * b := by
  have h1 := Nat.div_add_mod (w + b - 1) b
  have h2 := Nat.mod_lt (w + b - 1) hb
  unfold blocksX
  rw [Nat.mul_comm]
  set q := b * ((w + b - 1) / b) with hq
  omega

/-- `blocks_x` is the least such bound. -/
theorem blocksX_le (w b k : Nat) (hb : 0 < b) (h : w ≤ k * b) :
    blocksX w b ≤ k := by
  unfold blocksX
  have hlt : w + b - 1 < (k + 1) * b := by
    have he : (k + 1) * b = k * b + b := by ring
    omega
  exact Nat.lt_succ_iff.mp ((Nat.div_lt_iff_lt_mul hb).mpr hlt)

/-- A positive block-column count forces a positive width. -/
theorem width_pos_of_blocksX_pos (w b : Nat) (hb : 0 < b)
    (h : 0 < blocksX w b) : 0 < w := by
  rcases Nat.eq_zero_or_pos w with hw | hw
  · subst hw
    unfold blocksX at h
    rw [Nat.zero_add, Nat.div_eq_of_lt (by omega)] at h
    exact absurd h (by omega)
  · exact hw

/-- The grid has no spare column: the last column starts inside the image. -/
theorem blocksX_pred_mul_lt (w b : Nat) (hb : 0 < b)
    (hpos : 0 < blocksX w b) : (blocksX w b - 1) * b < w := by
  by_contra hcon
  push_neg at hcon
  have := blocksX_le w b (blocksX w b - 1) hb hcon
  omega

/-- Pixel column `x` lies in block column `x / b`, which is in range. -/
theorem div_lt_blocksX (x w b : Nat) (hb : 0 < b) (hx : x < w) :
    x / b < blocksX w b := by
  exact (Nat.div_lt_iff_lt_mul hb).mpr (Nat.lt_of_lt_of_le hx (le_blocksX_mul w b hb))

/-- Any pixel is below the right edge of its own block column. -/
theorem lt_own_block_end (x b : Nat) (hb : 0 < b) : x < x / b * b + b := by
  have h1 := Nat.div_add_mod x b
  have h2 := Nat.mod_lt x hb
  rw [Nat.mul_comm] at h1
  set q := x / b * b with hq
  omega

/-- Reading an element of a mapped range below its length. -/
theorem getD_range_map {α : Type} (f : Nat → α) (n i : Nat) (d : α)
    (hi : i < n) : ((List.range n).map f).getD i d = f i := by
  rw [List.getD_eq_getElem?_getD, List.getElem?_map, List.getElem?_range hi]
  rfl

/-- Block-row index recovered from the flattened index of pixel `(x, y)`. -/
theorem pixel_idx_div (b bx x y : Nat) (hx : x / b < bx) :
    (y / b * bx + x / b) / bx = y / b := by
  have hbx : 0 < bx := Nat.lt_of_le_of_lt (Nat.zero_le (x / b)) hx
  rw [Nat.add_comm, Nat.mul_comm, Nat.add_mul_div_left _ _ hbx,
    Nat.div_eq_of_lt hx, Nat.zero_add]

/-- Block-column index recovered from the flattened index of pixel `(x, y)`. -/
theorem pixel_idx_mod (b bx x y : Nat) (hx : x / b < bx) :
    (y / b * bx + x / b) % bx = x / b := by
  rw [Nat.add_comm, Nat.mul_comm, Nat.add_mul_mod_self_left,
    Nat.mod_eq_of_lt hx]

/-- The flattened block index of a pixel is inside the color table range. -/
theorem pixel_idx_lt (b bx ny x y : Nat) (hx : x / b < bx) (hy : y / b < ny) :
    y / b * bx + x / b < ny * bx := by
  calc y / b * bx + x / b < y / b * bx + bx := by omega
    _ = (y / b + 1) * bx := by ring
    _ ≤ ny * bx := Nat.mul_le_mul_right bx (by omega)

/-- Row sum over a uniform-color image. -/
theorem rowSum_const (img : Image) (c : Rgba)
    (hconst : ∀ x < img.width, ∀ y < img.height, img.pix x y = c)
    (xs xe y : Nat) (hxe : xe ≤ img.width) (hy : y < img.height)
    (f : Rgba → Nat) : rowSum img xs xe y f = (xe - xs) * f c := by
  unfold rowSum
  have hmap : (List.range (xe - xs)).map (fun dx => f (img.pix (xs + dx) y)) =
      (List.range (xe - xs)).map (fun _ => f c) := by
    apply List.map_congr_left
    intro dx hdx
    rw [List.mem_range] at hdx
    rw [hconst (xs + dx) (by omega) y hy]
  rw [hmap]
  simp

/-- Rectangle sum over a uniform-color image. -/
theorem rectSum_const (img : Image) (c : Rgba)
    (hconst : ∀ x < img.width, ∀ y < img.height, img.pix x y = c)
    (xs xe ys ye : Nat) (hxe : xe ≤ img.width) (hye : ye ≤ img.height)
    (f : Rgba → Nat) : rectSum img xs xe ys ye f = rectCount xs xe ys ye * f c := by
  unfold rectSum rectCount
  have hmap : (List.range (ye - ys)).map (fun dy => rowSum img xs xe (ys + dy) f) =
      (List.range (ye - ys)).map (fun _ => (xe - xs) * f c) := by
    apply List.map_congr_left
    intro dy hdy
    rw [List.mem_range] at hdy
    exact rowSum_const img c hconst xs xe (ys + dy) hxe (by omega) f
  rw [hmap]
  simp
  ring

/-- Block channel sum over a uniform-color image. -/
theorem blockSum_const (img : Image) (c : Rgba)
    (hconst : ∀ x < img.width, ∀ y < img.height, img.pix x y = c)
    (bx b idx : Nat) (f : Rgba → Nat) :
    blockSum img bx b idx f = blockCount img bx b idx * f c := by
  simp only [blockSum, blockCount, xEndOf, yEndOf]
  exact rectSum_const img c hconst _ _ _ _ (Nat.min_le_right _ _)
    (Nat.min_le_right _ _) f

/-- C1: with `b = max(block_size, 1)` the block averager uses
`blocks_x = ceil(w / b)` columns and `blocks_y = ceil(h / b)` rows (stated as
the least grid counts covering the image), every image pixel lies in exactly
one grid block (extents clamped at the right/bottom edges), and each block's
color is the per-channel sum over its extent held in wrapping unsigned
32-bit accumulators, divided by the unsigned pixel counter with truncating
division and cast to `u8`; a block whose counter is zero — in particular a
block containing zero pixels — yields exactly `(0, 0, 0, 255)`. -/
theorem c1_block_averaging (img : Image) (block : Nat) :
    ∀ b bx ny, b = max block 1 → bx = blocksX img.width b →
      ny = blocksY img.height b →
    ((img.width ≤ bx * b ∧ ∀ k, img.width ≤ k * b → bx ≤ k) ∧
     (img.height ≤ ny * b ∧ ∀ k, img.height ≤ k * b → ny ≤ k)) ∧
    (∀ x < img.width, ∀ y < img.height, ∃! idx,
      idx < ny * bx ∧
      xStartOf bx b idx ≤ x ∧ x < xEndOf img.width bx b idx ∧
      yStartOf bx b idx ≤ y ∧ y < yEndOf img.height bx b idx) ∧
    (∀ idx < ny * bx,
      (blockCount img bx b idx % U32 = 0 →
        blockColor img b bx idx = ⟨0, 0, 0, 255⟩) ∧
      (blockCount img bx b idx % U32 ≠ 0 →
        blockColor img b bx idx =
          ⟨blockSum img bx b idx (fun p => p.r) % U32 /
              (blockCount img bx b idx % U32) % 256,
           blockSum img bx b idx (fun p => p.g) % U32 /
              (blockCount img bx b idx % U32) % 256,
           blockSum img bx b idx (fun p => p.b) % U32 /
              (blockCount img bx b idx % U32) % 256,
           blockSum img bx b idx (fun p => p.a) % U32 /
              (blockCount img bx b idx % U32) % 256⟩)) := by
  intro b bx ny hb hbx hny
  have hbpos : 0 < b := by rw [hb]; omega
  subst hbx
  subst hny
  refine ⟨⟨⟨le_blocksX_mul _ _ hbpos, fun k hk => blocksX_le _ _ k hbpos hk⟩,
    ⟨le_blocksX_mul _ _ hbpos, fun k hk => blocksX_le _ _ k hbpos hk⟩⟩, ?_, ?_⟩
  · intro x hx y hy
    have hxb : x / b < blocksX img.width b := div_lt_blocksX x _ b hbpos hx
    have hyb : y / b < blocksY img.height b := div_lt_blocksX y _ b hbpos hy
    refine ⟨y / b * blocksX img.width b + x / b, ⟨?_, ?_, ?_, ?_, ?_⟩, ?_⟩
    · exact pixel_idx_lt b _ _ x y hxb hyb
    · simp only [xStartOf]
      rw [pixel_idx_mod b _ x y hxb]
      exact Nat.div_mul_le_self x b
    · simp only [xEndOf, xStartOf]
      rw [pixel_idx_mod b _ x y hxb]
      exact lt_min (lt_own_block_end x b hbpos) hx
    · simp only [yStartOf]
      rw [pixel_idx_div b _ x y hxb]
      exact Nat.div_mul_le_self y b
    · simp only [yEndOf, yStartOf]
      rw [pixel_idx_div b _ x y hxb]
      exact lt_min (lt_own_block_end y b hbpos) hy
    · rintro idx ⟨-, h1, h2, h3, h4⟩
      simp only [xStartOf, xEndOf, yStartOf, yEndOf] at h1 h2 h3 h4
      have e1 : x / b = idx % blocksX img.width b := by
        refine Nat.div_eq_of_lt_le h1 ?_
        have := Nat.lt_min.mp h2
        calc x < idx % blocksX img.width b * b + b := this.1
          _ = (idx % blocksX img.width b + 1) * b := by ring
      have e2 : y / b = idx / blocksX img.width b := by
        refine Nat.div_eq_of_lt_le h3 ?_
        have := Nat.lt_min.mp h4
        calc y < idx / blocksX img.width b * b + b := this.1
          _ = (idx / blocksX img.width b + 1) * b := by ring
      calc idx = blocksX img.width b * (idx / blocksX img.width b) +
            idx % blocksX img.width b := (Nat.div_add_mod idx _).symm
        _ = idx / blocksX img.width b * blocksX img.width b +
            idx % blocksX img.width b := by ring
        _ = y / b * blocksX img.width b + x / b := by rw [← e1, ← e2]
  · intro idx hidx
    constructor
    · intro h0
      rw [blockColor_eq, if_pos h0]
    · intro hne
      rw [blockColor_eq, if_neg hne]

/-- C1 witness: the block-color formula instantiated at block 4 of a
concrete 5×3 image with block size 2 (a clamped edge block of 2 pixels). -/
theorem c1_block_averaging_witness :
    blockColor img5x3 2 3 4 =
      ⟨blockSum img5x3 3 2 4 (fun p => p.r) % U32 /
          (blockCount img5x3 3 2 4 % U32) % 256,
       blockSum img5x3 3 2 4 (fun p => p.g) % U32 /
          (blockCount img5x3 3 2 4 % U32) % 256,
       blockSum img5x3 3 2 4 (fun p => p.b) % U32 /
          (blockCount img5x3 3 2 4 % U32) % 256,
       blockSum img5x3 3 2 4 (fun p => p.a) % U32 /
          (blockCount img5x3 3 2 4 % U32) % 256⟩ := by
  have h := (c1_block_averaging img5x3 2 2 3 2 (by decide) (by decide)
    (by decide)).2.2 4 (by decide)
  exact h.2 (by decide)

/-- `blocks_y` is the same ceiling division as `blocks_x`. -/
theorem blocksY_eq_blocksX (h b : Nat) : blocksY h b = blocksX h b := rfl

/-- An in-range block index has a nonempty clamped extent. -/
theorem blockCount_pos (img : Image) (b idx : Nat) (hb : 0 < b)
    (hidx : idx < blocksY img.height b * blocksX img.width b) :
    0 < blockCount img (blocksX img.width b) b idx := by
  rw [blocksY_eq_blocksX] at hidx
  have hbxpos : 0 < blocksX img.width b := by
    rcases Nat.eq_zero_or_pos (blocksX img.width b) with h | h
    · rw [h, Nat.mul_zero] at hidx; omega
    · exact h
  have hnypos : 0 < blocksX img.height b := by
    rcases Nat.eq_zero_or_pos (blocksX img.height b) with h | h
    · rw [h, Nat.zero_mul] at hidx; omega
    · exact h
  have hxlt : idx % blocksX img.width b * b < img.width := by
    have h1 : idx % blocksX img.width b ≤ blocksX img.width b - 1 := by
      have := Nat.mod_lt idx hbxpos
      omega
    calc idx % blocksX img.width b * b ≤ (blocksX img.width b - 1) * b :=
          Nat.mul_le_mul_right b h1
      _ < img.width := blocksX_pred_mul_lt img.width b hb hbxpos
  have hylt : idx / blocksX img.width b * b < img.height := by
    have h2 : idx / blocksX img.width b < blocksX img.height b :=
      (Nat.div_lt_iff_lt_mul hbxpos).mpr hidx
    have h3 : idx / blocksX img.width b ≤ blocksX img.height b - 1 := by omega
    calc idx / blocksX img.width b * b ≤ (blocksX img.height b - 1) * b :=
          Nat.mul_le_mul_right b h3
      _ < img.height := blocksX_pred_mul_lt img.height b hb hnypos
  simp only [blockCount, rectCount, xStartOf, yStartOf, xEndOf, yEndOf]
  have e1 : idx % blocksX img.width b * b <
      min (idx % blocksX img.width b * b + b) img.width := lt_min (by omega) hxlt
  have e2 : idx / blocksX img.width b * b <
      min (idx / blocksX img.width b * b + b) img.height := lt_min (by omega) hylt
  exact Nat.mul_pos (by omega) (by omega)

/-- A block never holds more than `min(b, h) * min(b, w)` pixels. -/
theorem blockCount_le (img : Image) (bx b idx : Nat) :
    blockCount img bx b idx ≤ min b img.height * min b img.width := by
  simp only [blockCount, rectCount, xStartOf, yStartOf, xEndOf, yEndOf]
  have h1 : min (idx / bx * b + b) img.height ≤ idx / bx * b + b :=
    Nat.min_le_left _ _
  have h2 : min (idx / bx * b + b) img.height ≤ img.height := Nat.min_le_right _ _
  have h3 : min (idx % bx * b + b) img.width ≤ idx % bx * b + b :=
    Nat.min_le_left _ _
  have h4 : min (idx % bx * b + b) img.width ≤ img.width := Nat.min_le_right _ _
  exact Nat.mul_le_mul (le_min (by omega) (by omega)) (le_min (by omega) (by omega))

/-- A row sum of channel values bounded by 255. -/
theorem rowSum_le (img : Image) (xs xe y : Nat) (f : Rgba → Nat)
    (hf : ∀ dx, dx < xe - xs → f (img.pix (xs + dx) y) ≤ 255) :
    rowSum img xs xe y f ≤ (xe - xs) * 255 := by
  unfold rowSum
  have h := List.sum_le_card_nsmul
    ((List.range (xe - xs)).map (fun dx => f (img.pix (xs + dx) y))) 255 ?_
  · simpa using h
  · intro v hv
    rw [List.mem_map] at hv
    obtain ⟨dx, hdx, rfl⟩ := hv
    exact hf dx (List.mem_range.mp hdx)

/-- A rectangle sum of channel values bounded by 255. -/
theorem rectSum_le (img : Image) (xs xe ys ye : Nat) (f : Rgba → Nat)
    (hf : ∀ x y, xs ≤ x → x < xe → ys ≤ y → y < ye → f (img.pix x y) ≤ 255) :
    rectSum img xs xe ys ye f ≤ rectCount xs xe ys ye * 255 := by
  unfold rectSum rectCount
  have h := List.sum_le_card_nsmul
    ((List.range (ye - ys)).map (fun dy => rowSum img xs xe (ys + dy) f))
    ((xe - xs) * 255) ?_
  · calc ((List.range (ye - ys)).map (fun dy => rowSum img xs xe (ys + dy) f)).sum
        ≤ _ := h
      _ = (ye - ys) * ((xe - xs) * 255) := by simp [smul_eq_mul]
      _ = (ye - ys) * (xe - xs) * 255 := by ring
  · intro v hv
    rw [List.mem_map] at hv
    obtain ⟨dy, hdy, rfl⟩ := hv
    rw [List.mem_range] at hdy
    exact rowSum_le img xs xe (ys + dy) f (fun dx hdx => hf (xs + dx) (ys + dy)
      (by omega) (by omega) (by omega) (by omega))

/-- A block channel sum is bounded by 255 per pixel. -/
theorem blockSum_le (img : Image) (bx b idx : Nat) (f : Rgba → Nat)
    (hf : ∀ x < img.width, ∀ y < img.height, f (img.pix x y) ≤ 255) :
    blockSum img bx b idx f ≤ blockCount img bx b idx * 255 := by
  simp only [blockSum, blockCount]
  apply rectSum_le
  intro x y hx1 hx2 hy1 hy2
  have hxw : x < img.width :=
    lt_of_lt_of_le hx2 (by simp only [xEndOf]; exact Nat.min_le_right _ _)
  have hyh : y < img.height :=
    lt_of_lt_of_le hy2 (by simp only [yEndOf]; exact Nat.min_le_right _ _)
  exact hf x hxw y hyh

/-- In-range blocks with at most `⌊(2^32 - 1) / 255⌋ = 16843009` pixels of a
valid image are averaged exactly: no accumulator wraps and the code returns
the truncated arithmetic mean of each channel. -/
theorem blockColor_exact (img : Image) (b idx : Nat) (hb : 0 < b)
    (hvalid : img.Valid)
    (hidx : idx < blocksY img.height b * blocksX img.width b)
    (hN : blockCount img (blocksX img.width b) b idx ≤ 16843009) :
    blockColor img b (blocksX img.width b) idx =
      ⟨blockSum img (blocksX img.width b) b idx (fun p => p.r) /
          blockCount img (blocksX img.width b) b idx,
       blockSum img (blocksX img.width b) b idx (fun p => p.g) /
          blockCount img (blocksX img.width b) b idx,
       blockSum img (blocksX img.width b) b idx (fun p => p.b) /
          blockCount img (blocksX img.width b) b idx,
       blockSum img (blocksX img.width b) b idx (fun p => p.a) /
          blockCount img (blocksX img.width b) b idx⟩ := by
  have hpos := blockCount_pos img b idx hb hidx
  have hcount_lt : blockCount img (blocksX img.width b) b idx < U32 := by
    unfold U32
    omega
  have hmod : blockCount img (blocksX img.width b) b idx % U32 =
      blockCount img (blocksX img.width b) b idx := Nat.mod_eq_of_lt hcount_lt
  have key : ∀ f : Rgba → Nat,
      (∀ x < img.width, ∀ y < img.height, f (img.pix x y) ≤ 255) →
      blockSum img (blocksX img.width b) b idx f % U32 /
          (blockCount img (blocksX img.width b) b idx % U32) % 256 =
        blockSum img (blocksX img.width b) b idx f /
          blockCount img (blocksX img.width b) b idx := by
    intro f hf
    have hS := blockSum_le img (blocksX img.width b) b idx f hf
    have hS_lt : blockSum img (blocksX img.width b) b idx f < U32 := by
      unfold U32
      calc blockSum img (blocksX img.width b) b idx f
          ≤ blockCount img (blocksX img.width b) b idx * 255 := hS
        _ ≤ 16843009 * 255 := Nat.mul_le_mul_right 255 hN
        _ < 4294967296 := by norm_num
    rw [Nat.mod_eq_of_lt hS_lt, hmod]
    have hq : blockSum img (blocksX img.width b) b idx f /
        blockCount img (blocksX img.width b) b idx ≤ 255 :=
      Nat.div_le_of_le_mul (by omega)
    exact Nat.mod_eq_of_lt (by omega)
  rw [blockColor_eq, if_neg (by omega)]
  rw [key (fun p => p.r) fun x hx y hy => by
        have := hvalid x hx y hy
        show (img.pix x y).r ≤ 255
        omega,
    key (fun p => p.g) fun x hx y hy => by
        have := hvalid x hx y hy
        show (img.pix x y).g ≤ 255
        omega,
    key (fun p => p.b) fun x hx y hy => by
        have := hvalid x hx y hy
        show (img.pix x y).b ≤ 255
        omega,
    key (fun p => p.a) fun x hx y hy => by
        have := hvalid x hx y hy
        show (img.pix x y).a ≤ 255
        omega]

/-- C7 (amended): pixelation of a uniform-color image reproduces the input
exactly — provided no block holds more than 16,843,009 pixels, so that the
`u32` channel accumulators cannot wrap (the original claim fails beyond that
bound, see the counterexample). -/
theorem c7_uniform_roundtrip (img : Image) (block : Nat) (f : FilterType)
    (c : Rgba)
    (hconst : ∀ x < img.width, ∀ y < img.height, img.pix x y = c)
    (hcr : c.r < 256) (hcg : c.g < 256) (hcb : c.b < 256) (hca : c.a < 256)
    (hbound : min (max block 1) img.height * min (max block 1) img.width ≤
      16843009) :
    (App.pixelate img block f).width = img.width ∧
    (App.pixelate img block f).height = img.height ∧
    ∀ x < img.width, ∀ y < img.height,
      (App.pixelate img block f).pix x y = img.pix x y := by
  have hvalid : img.Valid := by
    intro x hx y hy
    rw [hconst x hx y hy]
    exact ⟨hcr, hcg, hcb, hca⟩
  refine ⟨rfl, rfl, ?_⟩
  intro x hx y hy
  have hb : 0 < max block 1 := by omega
  have hxb : x / max block 1 < blocksX img.width (max block 1) :=
    div_lt_blocksX x _ _ hb hx
  have hyb : y / max block 1 < blocksY img.height (max block 1) :=
    div_lt_blocksX y _ _ hb hy
  have hidx : y / max block 1 * blocksX img.width (max block 1) +
      x / max block 1 <
      blocksY img.height (max block 1) * blocksX img.width (max block 1) :=
    pixel_idx_lt _ _ _ x y hxb hyb
  have happ : (App.pixelate img block f).pix x y =
      (blockColors img (max block 1)).getD
        (y / max block 1 * blocksX img.width (max block 1) + x / max block 1)
        ⟨0, 0, 0, 0⟩ := rfl
  rw [happ]
  simp only [blockColors]
  rw [getD_range_map _ _ _ _ hidx]
  have hN : blockCount img (blocksX img.width (max block 1)) (max block 1)
      (y / max block 1 * blocksX img.width (max block 1) + x / max block 1) ≤
      16843009 :=
    le_trans (blockCount_le img _ _ _) hbound
  rw [blockColor_exact img (max block 1) _ hb hvalid hidx hN]
  simp only [blockSum_const img c hconst]
  have hpos := blockCount_pos img (max block 1)
    (y / max block 1 * blocksX img.width (max block 1) + x / max block 1)
    hb hidx
  rw [hconst x hx y hy]
  have hdiv : ∀ v : Nat, blockCount img (blocksX img.width (max block 1))
      (max block 1)
      (y / max block 1 * blocksX img.width (max block 1) + x / max block 1) *
      v / blockCount img (blocksX img.width (max block 1)) (max block 1)
      (y / max block 1 * blocksX img.width (max block 1) + x / max block 1) =
      v := by
    intro v
    rw [Nat.mul_comm]
    exact Nat.mul_div_cancel v hpos
  rw [hdiv, hdiv, hdiv, hdiv]

/-- C7 witness: the amended round trip at a concrete uniform 5×3 image with
block size 2. -/
theorem c7_uniform_roundtrip_witness :
    (App.pixelate imgU 2 FilterType.nearest).pix 3 1 = imgU.pix 3 1 := by
  have h := c7_uniform_roundtrip imgU 2 FilterType.nearest ⟨10, 20, 30, 40⟩
    (fun x hx y hy => rfl) (by decide) (by decide) (by decide) (by decide)
    (by decide)
  exact h.2.2 3 (by decide) 1 (by decide)

/-- The single block of the uniform white 4105×4105 image with block size
4105 averages to `(0, 0, 0, 0)`: the channel sums `255 * 4105 ^ 2` wrap
modulo `2 ^ 32` down to `2044079`, and `2044079 / 16851025 = 0`. -/
theorem img4105C_color : blockColor img4105C 4105 1 0 = ⟨0, 0, 0, 0⟩ := by
  rw [blockColor_eq]
  simp only [blockSum_const img4105C ⟨255, 255, 255, 255⟩
    (fun x hx y hy => rfl) 1 4105 0]
  decide

/-- C7 counterexample: on the uniform white 4105×4105 image with block size
4105 the pixelation output is transparent black, not the input color — the
claimed round trip for every size and block fails once a block overflows the
`u32` accumulators. -/
theorem c7_counterexample :
    (App.pixelate img4105C 4105 FilterType.triangle).pix 0 0 ≠
      img4105C.pix 0 0 := by
  have hmax : max 4105 1 = 4105 := by decide
  simp only [App.pixelate, hmax]
  have hidx0 : 0 / 4105 * blocksX img4105C.width 4105 + 0 / 4105 = 0 := by
    decide
  rw [hidx0]
  have hrange : (0 : Nat) <
      blocksY img4105C.height 4105 * blocksX img4105C.width 4105 := by decide
  simp only [blockColors]
  rw [getD_range_map _ _ _ _ hrange]
  have hbx : blocksX img4105C.width 4105 = 1 := by decide
  rw [hbx, img4105C_color]
  decide

/-- C10 (amended): the per-block channel accumulators are 32-bit, so the
computed block average is guaranteed to equal the exact truncated arithmetic
mean for every in-range block holding at most
`⌊(2^32 - 1) / 255⌋ = 16843009` pixels; beyond that bound the sums are taken
modulo `2^32` and the returned color can differ from the true mean — the
fully-populated block of side 4105 (16,851,025 pixels) of a uniform white
image returns `(0, 0, 0, 0)` although the exact truncated mean is 255 in
every channel. -/
theorem c10_accumulator_width (img : Image) (block : Nat)
    (hvalid : img.Valid) :
    (∀ b bx ny, b = max block 1 → bx = blocksX img.width b →
      ny = blocksY img.height b → ∀ idx < ny * bx,
      blockCount img bx b idx ≤ 16843009 →
      blockColor img b bx idx =
        ⟨blockSum img bx b idx (fun p => p.r) / blockCount img bx b idx,
         blockSum img bx b idx (fun p => p.g) / blockCount img bx b idx,
         blockSum img bx b idx (fun p => p.b) / blockCount img bx b idx,
         blockSum img bx b idx (fun p => p.a) / blockCount img bx b idx⟩) ∧
    (16843009 < blockCount img4105C 1 4105 0 ∧
     blockColor img4105C 4105 1 0 = ⟨0, 0, 0, 0⟩ ∧
     blockSum img4105C 1 4105 0 (fun p => p.r) /
        blockCount img4105C 1 4105 0 = 255) := by
  refine ⟨?_, by decide, img4105C_color, ?_⟩
  · intro b bx ny hb hbx hny idx hidx hN
    subst hbx
    subst hny
    have hbpos : 0 < b := by rw [hb]; omega
    exact blockColor_exact img b idx hbpos hvalid hidx hN
  · rw [blockSum_const img4105C ⟨255, 255, 255, 255⟩ (fun x hx y hy => rfl)
      1 4105 0]
    decide

/-- C10 witness: exact averaging of a concrete in-range block of the 5×3
test image with block size 2. -/
theorem c10_accumulator_width_witness :
    blockColor img5x3 2 3 4 =
      ⟨blockSum img5x3 3 2 4 (fun p => p.r) / blockCount img5x3 3 2 4,
       blockSum img5x3 3 2 4 (fun p => p.g) / blockCount img5x3 3 2 4,
       blockSum img5x3 3 2 4 (fun p => p.b) / blockCount img5x3 3 2 4,
       blockSum img5x3 3 2 4 (fun p => p.a) / blockCount img5x3 3 2 4⟩ := by
  exact (c10_accumulator_width img5x3 2 (by unfold Image.Valid; decide)).1
    2 3 2 (by decide) (by decide) (by decide) 4 (by decide) (by decide)

/-- C10 counterexample: a fully-populated block far beyond the claimed
16,843,009-pixel exactness bound whose computed average still equals the
exact truncated mean — the all-zero 4105×4105 image with block size 4105 —
refuting both the "only for" bound and the "any larger block is not the
true mean" reading of the claim. -/
theorem c10_counterexample :
    16843009 < blockCount img4105Z 1 4105 0 ∧
    blockColor img4105Z 4105 1 0 =
      ⟨blockSum img4105Z 1 4105 0 (fun p => p.r) /
          blockCount img4105Z 1 4105 0,
       blockSum img4105Z 1 4105 0 (fun p => p.g) /
          blockCount img4105Z 1 4105 0,
       blockSum img4105Z 1 4105 0 (fun p => p.b) /
          blockCount img4105Z 1 4105 0,
       blockSum img4105Z 1 4105 0 (fun p => p.a) /
          blockCount img4105Z 1 4105 0⟩ := by
  constructor
  · decide
  · rw [blockColor_eq]
    simp only [blockSum_const img4105Z ⟨0, 0, 0, 0⟩ (fun x hx y hy => rfl)
      1 4105 0]
    decide

/-- Length of a flat map over a range with uniform chunk length. -/
theorem length_flatMap_uniform {α : Type} (f : Nat → List α) (n L : Nat)
    (hL : ∀ k < n, (f k).length = L) :
    ((List.range n).flatMap f).length = n * L := by
  revert hL
  induction n with
  | zero => intro hL; simp
  | succ m ih =>
    intro hL
    rw [List.range_succ, List.flatMap_append, List.length_append,
      ih (fun k hk => hL k (by omega))]
    have h1 : ([m].flatMap f).length = L := by
      simp [hL m (by omega)]
    rw [h1]
    ring

/-- Indexing into a flat map over a range with uniform chunk length. -/
theorem getElem?_flatMap_uniform {α : Type} (f : Nat → List α) (n L i j : Nat)
    (hL : ∀ k < n, (f k).length = L) (hi : i < n) (hj : j < L) :
    ((List.range n).flatMap f)[i * L + j]? = (f i)[j]? := by
  revert hL hi
  induction n with
  | zero => intro hL hi; omega
  | succ m ih =>
    intro hL hi
    rw [List.range_succ, List.flatMap_append]
    rcases Nat.lt_or_ge i m with hlt | hge
    · rw [List.getElem?_append_left]
      · exact ih (fun k hk => hL k (by omega)) hlt
      · rw [length_flatMap_uniform f m L (fun k hk => hL k (by omega))]
        calc i * L + j < i * L + L := by omega
          _ = (i + 1) * L := by ring
          _ ≤ m * L := Nat.mul_le_mul_right L (by omega)
    · have him : i = m := by omega
      subst him
      rw [List.getElem?_append_right
        (by rw [length_flatMap_uniform f i L (fun k hk => hL k (by omega))]
            omega)]
      rw [length_flatMap_uniform f i L (fun k hk => hL k (by omega))]
      have hsub : i * L + j - i * L = j := by omega
      rw [hsub]
      simp

/-- Each reconstruction row chunk holds `w * 4` bytes. -/
theorem rowBytes_length (colors : List Rgba) (b bx w y : Nat) :
    (Tauri.rowBytes colors b bx w y).length = w * 4 := by
  unfold Tauri.rowBytes
  exact length_flatMap_uniform _ w 4 (fun k hk => rfl)

/-- Under the no-overflow side conditions (`w ≥ 1`, `w * 4 < 2^32`,
`w * h * 4 < 2^32`) the row-chunked reconstruction runs to completion: the
chunk size is exactly `w * 4`, there are exactly `h` full row chunks, no
leftover bytes remain, and the `from_raw` length check passes. -/
theorem tauri_pixelate_ok (img : Image) (block : Nat) (f : FilterType)
    (hw : 0 < img.width) (h4w : img.width * 4 < U32)
    (hlen : img.width * img.height * 4 < U32) :
    Tauri.pixelate img block f =
      some ((List.range img.height).flatMap
        (Tauri.rowBytes (blockColors img (max block 1)) (max block 1)
          (blocksX img.width (max block 1)) img.width)) := by
  simp only [Tauri.pixelate]
  rw [Nat.mod_eq_of_lt h4w, Nat.mod_eq_of_lt hlen]
  rw [if_neg (show ¬ img.width * 4 = 0 by omega)]
  have hrows : img.width * img.height * 4 / (img.width * 4) = img.height := by
    rw [show img.width * img.height * 4 = img.width * 4 * img.height by ring]
    exact Nat.mul_div_cancel_left img.height (by omega)
  rw [hrows]
  rw [if_neg (show ¬ (img.height ≠ 0 ∧ img.width * 4 ≠ img.width * 4) by simp)]
  rw [if_neg (show ¬ img.width * img.height * 4 < img.width * img.height * 4 by
    omega)]
  rw [show img.width * img.height * 4 - img.height * (img.width * 4) = 0 by
    rw [show img.width * img.height * 4 = img.height * (img.width * 4) by ring]
    omega]
  simp

/-- Reading one channel byte out of a four-byte pixel chunk. -/
theorem getElem?_channels (col : Rgba) (ch : Nat) (hch : ch < 4) :
    [col.r, col.g, col.b, col.a][ch]? = some (col.channel ch) := by
  interval_cases ch <;> rfl

/-- Reading one byte of a reconstruction row chunk: byte `x * 4 + ch` is
channel `ch` of the block color looked up for pixel column `x`. -/
theorem rowBytes_getElem? (colors : List Rgba) (b bx w y x ch : Nat)
    (hx : x < w) (hch : ch < 4) :
    (Tauri.rowBytes colors b bx w y)[x * 4 + ch]? =
      some ((colors.getD (y / b * bx + x / b) ⟨0, 0, 0, 0⟩).channel ch) := by
  unfold Tauri.rowBytes
  rw [getElem?_flatMap_uniform
    (fun x => let c := colors.getD (y / b * bx + x / b) ⟨0, 0, 0, 0⟩
              [c.r, c.g, c.b, c.a])
    w 4 x ch (fun k _ => rfl) hx hch]
  exact getElem?_channels _ ch hch

/-- Each byte position below `w * h * 4` decomposes uniquely as
`(y * w + x) * 4 + c` with `x < w`, `y < h`, `c < 4`: every output byte
belongs to exactly one pixel channel, so writing each pixel once covers the
buffer without overlap. -/
theorem byte_position_unique (w h p : Nat) (hw : 0 < w) (hp : p < w * h * 4) :
    ∃! t : Nat × Nat × Nat,
      (t.1 < w ∧ t.2.1 < h ∧ t.2.2 < 4) ∧
      p = (t.2.1 * w + t.1) * 4 + t.2.2 := by
  have hp4 : p / 4 < w * h := by
    exact (Nat.div_lt_iff_lt_mul (by norm_num)).mpr hp
  have hyh : p / 4 / w < h := by
    refine (Nat.div_lt_iff_lt_mul hw).mpr ?_
    rw [Nat.mul_comm]
    exact hp4
  have e4 := Nat.div_add_mod p 4
  have ew := Nat.div_add_mod (p / 4) w
  refine ⟨(p / 4 % w, p / 4 / w, p % 4),
    ⟨⟨Nat.mod_lt _ hw, hyh, Nat.mod_lt _ (by norm_num)⟩, ?_⟩, ?_⟩
  · calc p = 4 * (p / 4) + p % 4 := e4.symm
      _ = 4 * (w * (p / 4 / w) + p / 4 % w) + p % 4 := by rw [ew]
      _ = (p / 4 / w * w + p / 4 % w) * 4 + p % 4 := by ring
  · rintro ⟨x, y, c⟩ ⟨⟨hx, hy, hc⟩, hpeq⟩
    have hshape : p = c + 4 * (x + y * w) := by rw [hpeq]; ring
    have hc' : p % 4 = c := by
      rw [hshape, Nat.add_mul_mod_self_left, Nat.mod_eq_of_lt hc]
    have hdiv4 : p / 4 = x + y * w := by
      rw [hshape, Nat.add_mul_div_left _ _ (by norm_num : (0:Nat) < 4),
        Nat.div_eq_of_lt hc, Nat.zero_add]
    have hx' : p / 4 % w = x := by
      rw [hdiv4, Nat.add_mul_mod_self_right, Nat.mod_eq_of_lt hx]
    have hy' : p / 4 / w = y := by
      rw [hdiv4, Nat.add_mul_div_right _ _ hw, Nat.div_eq_of_lt hx,
        Nat.zero_add]
    simp only [Prod.mk.injEq]
    exact ⟨hx'.symm, hy'.symm, hc'.symm⟩

/-- C2 (amended): under the no-overflow side conditions (`w ≥ 1`,
`w * 4 < 2^32`, `w * h * 4 < 2^32`) the mosaic reconstruction produces a
buffer of exactly `w * h * 4` bytes in which every pixel `(x, y)` carries the
channels of `block_colors[(y / b) * blocks_x + (x / b)]`, the block-table
index is always in range, and every byte position belongs to exactly one
pixel channel (written exactly once, none left uninitialised) — including
when `w` or `h` is not a multiple of `b`.  Outside those bounds the `u32`
size arithmetic wraps and no buffer is produced (see the counterexample). -/
theorem c2_mosaic_reconstruction (img : Image) (block : Nat) (f : FilterType)
    (hw : 0 < img.width) (h4w : img.width * 4 < U32)
    (hlen : img.width * img.height * 4 < U32) :
    ∀ b bx, b = max block 1 → bx = blocksX img.width b →
    ∃ buf, Tauri.pixelate img block f = some buf ∧
      buf.length = img.width * img.height * 4 ∧
      (∀ x < img.width, ∀ y < img.height,
        y / b * bx + x / b < (blockColors img b).length ∧
        ∀ ch < 4, ∃ col,
          (blockColors img b)[y / b * bx + x / b]? = some col ∧
          buf[(y * img.width + x) * 4 + ch]? = some (col.channel ch)) ∧
      (∀ p < img.width * img.height * 4,
        ∃! t : Nat × Nat × Nat,
          (t.1 < img.width ∧ t.2.1 < img.height ∧ t.2.2 < 4) ∧
          p = (t.2.1 * img.width + t.1) * 4 + t.2.2) := by
  intro b bx hb hbx
  subst hb
  subst hbx
  have hbpos : 0 < max block 1 := by omega
  have hrowlen : ∀ k < img.height,
      (Tauri.rowBytes (blockColors img (max block 1)) (max block 1)
        (blocksX img.width (max block 1)) img.width k).length =
      img.width * 4 := fun k _ => rowBytes_length _ _ _ _ _
  refine ⟨_, tauri_pixelate_ok img block f hw h4w hlen, ?_, ?_, ?_⟩
  · rw [length_flatMap_uniform _ img.height (img.width * 4) hrowlen]
    ring
  · intro x hx y hy
    have hxb : x / max block 1 < blocksX img.width (max block 1) :=
      div_lt_blocksX x _ _ hbpos hx
    have hyb : y / max block 1 < blocksY img.height (max block 1) :=
      div_lt_blocksX y _ _ hbpos hy
    have hidx : y / max block 1 * blocksX img.width (max block 1) +
        x / max block 1 <
        blocksY img.height (max block 1) * blocksX img.width (max block 1) :=
      pixel_idx_lt _ _ _ x y hxb hyb
    constructor
    · simp only [blockColors, List.length_map, List.length_range]
      exact hidx
    · intro ch hch
      refine ⟨blockColor img (max block 1) (blocksX img.width (max block 1))
        (y / max block 1 * blocksX img.width (max block 1) +
          x / max block 1), ?_, ?_⟩
      · simp only [blockColors]
        rw [List.getElem?_map, List.getElem?_range hidx]
        rfl
      · have hsplit : (y * img.width + x) * 4 + ch =
            y * (img.width * 4) + (x * 4 + ch) := by ring
        rw [hsplit,
          getElem?_flatMap_uniform _ img.height (img.width * 4) y
            (x * 4 + ch) hrowlen hy (by omega)]
        rw [rowBytes_getElem? _ _ _ _ _ x ch hx hch]
        have hgetD : (blockColors img (max block 1)).getD
            (y / max block 1 * blocksX img.width (max block 1) +
              x / max block 1) ⟨0, 0, 0, 0⟩ =
            blockColor img (max block 1) (blocksX img.width (max block 1))
              (y / max block 1 * blocksX img.width (max block 1) +
                x / max block 1) := by
          simp only [blockColors]
          exact getD_range_map _ _ _ _ hidx
        rw [hgetD]
  · intro p hp
    exact byte_position_unique img.width img.height p hw hp

/-- C2 witness: the amended reconstruction contract at a concrete 5×3 image
with block size 2 — a non-multiple width (`blocks_x = 3`, last block of
width 1). -/
theorem c2_mosaic_reconstruction_witness :
    blocksX 5 2 = 3 ∧
    ∃ buf, Tauri.pixelate img5x3 2 FilterType.nearest = some buf ∧
      buf.length = 60 := by
  refine ⟨by decide, ?_⟩
  obtain ⟨buf, h1, h2, -, -⟩ :=
    c2_mosaic_reconstruction img5x3 2 FilterType.nearest (by decide)
      (by decide) (by decide) 2 3 (by decide) (by decide)
  refine ⟨buf, h1, ?_⟩
  rw [h2]
  decide

/-- C2 counterexample: on a zero-width image the `u32` chunk size `w * 4` is
`0`, `par_chunks_exact_mut` panics, and no output buffer is produced at all
— refuting the claim for every image and block size. -/
theorem c2_counterexample :
    Tauri.pixelate img0x1 1 FilterType.nearest = none := by decide

/-- C4 (amended): under the no-overflow side conditions the two `pixelate`
implementations are byte-identical: the row-chunked raw buffer of the
remote-command version equals the raw byte layout of the per-pixel CLI
version, for every image, block size and (ignored) filter. -/
theorem c4_impl_equivalence (img : Image) (block : Nat) (f : FilterType)
    (hw : 0 < img.width) (h4w : img.width * 4 < U32)
    (hlen : img.width * img.height * 4 < U32) :
    Tauri.pixelate img block f =
      some ((App.pixelate img block f).rawBytes) := by
  rw [tauri_pixelate_ok img block f hw h4w hlen]
  rfl

/-- C4 witness: byte-identical outputs at a concrete 5×3 image with block
size 3. -/
theorem c4_impl_equivalence_witness :
    Tauri.pixelate img5x3 3 FilterType.gaussian =
      some ((App.pixelate img5x3 3 FilterType.gaussian).rawBytes) :=
  c4_impl_equivalence img5x3 3 FilterType.gaussian (by decide) (by decide)
    (by decide)

/-- C4 counterexample: on a zero-width image the CLI version returns an
empty image while the remote-command version panics in
`par_chunks_exact_mut` (chunk size `0`), so the two implementations are not
equivalent on every input image. -/
theorem c4_counterexample :
    Tauri.pixelate img0x2 1 FilterType.nearest ≠
      some ((App.pixelate img0x2 1 FilterType.nearest).rawBytes) := by
  decide
